import Mathlib

/-!
Verification development for the schema-driven HTTP CRUD service
(`db_explorer.go`).  The Go source is shallowly embedded: JSON values become
the inductive `DbEx.Value`, the per-table column catalog becomes lists of
`DbEx.Col`, Go maps become association lists with last-writer-wins insert,
and each Go function is transcribed as a total Lean function.  The database
engine itself is an external collaborator of the program; for the round-trip
property it is modelled as an in-memory list of rows with an auto-increment
primary key.
-/

set_option autoImplicit false

deriving instance DecidableEq for Except

namespace DbEx

/-- Runtime kind of a decoded JSON / driver value.  Go decodes JSON numbers
as float64 (modelled with an integer carrier, which is enough for the
value-identity properties proved here), strings as string, booleans as bool
and JSON null as nil. -/
inductive Value where
  | num : Int → Value
  | str : String → Value
  | bool : Bool → Value
  | null : Value
deriving DecidableEq

/-- One column of a table, as read back from the driver column metadata:
`sql.ColumnType.Name`, `DatabaseTypeName` and `Nullable`.  `Nullable`
returns an extra ok flag (false when the driver cannot report nullability),
kept here as `nullableOk`. -/
structure Col where
  name : String
  dbTypeName : String
  nullable : Bool
  nullableOk : Bool
deriving DecidableEq

/-- Validation policy flags of `processForm` (struct ValidationOptions). -/
structure ValidationOptions where
  ignorePk : Bool
  ignoreNotProvidedField : Bool
  withDefaultValues : Bool
deriving DecidableEq

/-- Options used by handlerCreateItem. -/
def createOptions : ValidationOptions := ⟨true, false, true⟩

/-- Options used by handlerUpdateItem (WithDefaultValues left at the Go
zero value, false). -/
def updateOptions : ValidationOptions := ⟨false, true, false⟩

/-- A Go `map[string]any` holding JSON values, embedded as an association
list (insertion replaces an existing key). -/
abbrev FieldMap := List (String × Value)

/-- Go map read `m[k]`: first entry with the key. -/
def alFind? : FieldMap → String → Option Value
  | [], _ => none
  | (k, v) :: rest, key => if k = key then some v else alFind? rest key

/-- Go map write `m[k] = v`: replace the existing entry or append. -/
def alInsert : FieldMap → String → Value → FieldMap
  | [], key, v => [(key, v)]
  | (k, w) :: rest, key, v =>
    if k = key then (k, v) :: rest else (k, w) :: alInsert rest key v

/-- The key set of a field map. -/
def alKeys : FieldMap → List String
  | [] => []
  | (k, _) :: rest => k :: alKeys rest

/-- Removal of a key from a field map. -/
def alErase : FieldMap → String → FieldMap
  | [], _ => []
  | (k, w) :: rest, key =>
    if k = key then alErase rest key else (k, w) :: alErase rest key

/-- Restriction of a field map to a set of known keys. -/
def alFilter : FieldMap → List String → FieldMap
  | [], _ => []
  | (k, w) :: rest, keep =>
    if k ∈ keep then (k, w) :: alFilter rest keep else alFilter rest keep

/-- isNumberType: the semantic numeric type tag. -/
def isNumberType (columnType : String) : Bool :=
  columnType = "NUMBER"

/-- isStringType: the semantic string type tags. -/
def isStringType (columnType : String) : Bool :=
  columnType = "VARCHAR" || columnType = "TEXT" || columnType = "NVARCHAR"

/-- getDefaultValue: type-appropriate default for a missing non-nullable
column (0 for numeric, empty string for string, false otherwise). -/
def getDefaultValue (dbTypeName : String) : Value :=
  if isNumberType dbTypeName then .num 0
  else if isStringType dbTypeName then .str ""
  else .bool false

/-- Errors produced by processForm: ValidationError (message
"field NAME have invalid type") and the driver-capability error. -/
inductive PFError where
  | validation : String → PFError
  | nullableUnsupported : PFError
deriving DecidableEq

/-- Error, the message of a processForm error. -/
def pfErrorText : PFError → String
  | .validation f => "field " ++ f ++ " have invalid type"
  | .nullableUnsupported => "db driver does not support nullable"

/-- JSON error envelope written by NewErrorResponse. -/
structure ErrResponse where
  error : String
deriving DecidableEq

/-- Status plus error envelope of a failure reply. -/
structure HttpReply where
  status : Nat
  body : ErrResponse
deriving DecidableEq

/-- How handlerCreateItem / handlerUpdateItem reply when processForm fails:
WriteHeader(StatusBadRequest) then Write(NewErrorResponse(err)). -/
def formFailureReply (e : PFError) : HttpReply :=
  ⟨400, ⟨pfErrorText e⟩⟩

/-- Loop body state of processForm: the submitted map is threaded through
unchanged (the source only ever reads `form[name]`), the sanitized map is
the accumulator.  Transcribed branch by branch from the Go loop:
nullable-support check, primary-key rule, type switch on a submitted value,
then the missing-value policy. -/
def processFormAux (primaryKey : String) (opts : ValidationOptions)
    (form : FieldMap) (newForm : FieldMap) :
    List Col → FieldMap × Except PFError FieldMap
  | [] => (form, .ok newForm)
  | c :: rest =>
    if c.nullableOk = false then
      (form, .error .nullableUnsupported)
    else if c.name = primaryKey then
      if (alFind? form c.name).isSome && !opts.ignorePk then
        (form, .error (.validation c.name))
      else
        processFormAux primaryKey opts form newForm rest
    else
      match alFind? form c.name with
      | some v =>
        match v with
        | .num n =>
          if !isNumberType c.dbTypeName then (form, .error (.validation c.name))
          else processFormAux primaryKey opts form (alInsert newForm c.name (.num n)) rest
        | .str s =>
          if !isStringType c.dbTypeName then (form, .error (.validation c.name))
          else processFormAux primaryKey opts form (alInsert newForm c.name (.str s)) rest
        | .null =>
          if !c.nullable then (form, .error (.validation c.name))
          else processFormAux primaryKey opts form (alInsert newForm c.name .null) rest
        | .bool b =>
          processFormAux primaryKey opts form (alInsert newForm c.name (.bool b)) rest
      | none =>
        if opts.ignoreNotProvidedField then
          processFormAux primaryKey opts form newForm rest
        else if !c.nullable then
          if !opts.withDefaultValues then (form, .error (.validation c.name))
          else processFormAux primaryKey opts form
            (alInsert newForm c.name (getDefaultValue c.dbTypeName)) rest
        else
          processFormAux primaryKey opts form (alInsert newForm c.name .null) rest

/-- processForm: validate and sanitize a submitted field map against the
column catalog.  The first component is the submitted map as left behind by
the call (the validator only reads it), the second the sanitized map or the
first failure. -/
def processForm (form : FieldMap) (columns : List Col) (primaryKey : String)
    (opts : ValidationOptions) : FieldMap × Except PFError FieldMap :=
  processFormAux primaryKey opts form [] columns

/-- The type-switch mismatch condition of processForm for a submitted value:
a number for a non-numeric column, a string for a non-string column, null
for a non-nullable column; booleans fall through the switch unchecked. -/
def typeMismatch (v : Value) (c : Col) : Bool :=
  match v with
  | .num _ => !isNumberType c.dbTypeName
  | .str _ => !isStringType c.dbTypeName
  | .null => !c.nullable
  | .bool _ => false

/-- A value whose runtime kind agrees with the column semantic type:
numbers for numeric columns, strings for string columns, null only for
nullable columns, booleans for the remaining (other-typed) columns. -/
def typeCorrect (v : Value) (c : Col) : Bool :=
  match v with
  | .num _ => isNumberType c.dbTypeName
  | .str _ => isStringType c.dbTypeName
  | .null => c.nullable
  | .bool _ => !isNumberType c.dbTypeName && !isStringType c.dbTypeName

/-- The submitted map provides a type-correct value for the column. -/
def providedOk (form : FieldMap) (c : Col) : Bool :=
  match alFind? form c.name with
  | some v => typeCorrect v c
  | none => false

/-- The processForm loop body does not fail at this column. -/
def colClean (form : FieldMap) (primaryKey : String)
    (opts : ValidationOptions) (c : Col) : Bool :=
  c.nullableOk &&
    (if c.name = primaryKey then
      !(alFind? form c.name).isSome || opts.ignorePk
    else
      match alFind? form c.name with
      | some v => !typeMismatch v c
      | none =>
        opts.ignoreNotProvidedField || c.nullable || opts.withDefaultValues)

/-- The error the loop body produces at a column it fails on. -/
def stepError (c : Col) : PFError :=
  if c.nullableOk then .validation c.name else .nullableUnsupported

/-- The sanitized-map update the loop body performs at a column it does not
fail on. -/
def stepInsert (form : FieldMap) (primaryKey : String)
    (opts : ValidationOptions) (newForm : FieldMap) (c : Col) : FieldMap :=
  if c.name = primaryKey then newForm
  else
    match alFind? form c.name with
    | some v => alInsert newForm c.name v
    | none =>
      if opts.ignoreNotProvidedField then newForm
      else if !c.nullable then
        alInsert newForm c.name (getDefaultValue c.dbTypeName)
      else alInsert newForm c.name .null

/-- The sanitized map produced by a run of the loop in which no column
fails. -/
def cleanRun (form : FieldMap) (primaryKey : String)
    (opts : ValidationOptions) (newForm : FieldMap) (columns : List Col) :
    FieldMap :=
  columns.foldl (stepInsert form primaryKey opts) newForm

/-- A token of one of the registered route patterns.  The Go patterns only
use literal characters and starred character classes, so an anchored
pattern is a token list: `lit c` consumes exactly the character c, `star f`
consumes any run (possibly empty) of characters satisfying f. -/
inductive Tok where
  | lit : Char → Tok
  | star : (Char → Bool) → Tok

/-- The regexp word class: `[0-9A-Za-z_]` (Go regexp `\w`). -/
def isWordChar (c : Char) : Bool :=
  c.isAlphanum || c = '_'

/-- Full-string matching of an anchored token-list pattern against a path:
`regexp.MustCompile("^" ++ pattern ++ "$").MatchString(path)`.  A star may
consume the next character (if its class accepts it) or stop. -/
def matchesTokens : List Tok → List Char → Bool
  | [], [] => true
  | [], _ :: _ => false
  | .lit _ :: _, [] => false
  | .lit c :: ts, x :: xs => c = x && matchesTokens ts xs
  | .star _ :: ts, [] => matchesTokens ts []
  | .star f :: ts, x :: xs =>
    matchesTokens ts (x :: xs) || (f x && matchesTokens (.star f :: ts) xs)
termination_by ts p => (p.length, ts.length)

/-- Number of literal occurrences of a character in a pattern. -/
def litCount (c : Char) : List Tok → Nat
  | [] => 0
  | .lit d :: ts => (if d = c then 1 else 0) + litCount c ts
  | .star _ :: ts => litCount c ts

/-- The star classes of a pattern. -/
def starPreds : List Tok → List (Char → Bool)
  | [] => []
  | .lit _ :: ts => starPreds ts
  | .star f :: ts => f :: starPreds ts

/-- The handler a route dispatches to, by name. -/
inductive HandlerTag where
  | getTableNames
  | getTableItems
  | getTableItem
  | createItem
  | deleteItem
  | updateItem
deriving DecidableEq

/-- One registered route: exact HTTP method, anchored pattern, handler. -/
structure RouteM where
  method : String
  pattern : List Tok
  handler : HandlerTag

/-- ServeHTTP: scan the routes in registration order; skip a route whose
method differs from the request method; the first remaining route whose
anchored pattern matches the full path handles the request; with no match
the reply is 404 not found (`none`). -/
def serveHTTP : List RouteM → String → List Char → Option HandlerTag
  | [], _, _ => none
  | r :: rs, m, p =>
    if r.method = m then
      if matchesTokens r.pattern p then some r.handler else serveHTTP rs m p
    else serveHTTP rs m p

/-- Route `GET /`. -/
def routeRoot : RouteM := ⟨"GET", [.lit '/'], .getTableNames⟩

/-- Route `GET /\w*`. -/
def routeTableItems : RouteM :=
  ⟨"GET", [.lit '/', .star isWordChar], .getTableItems⟩

/-- Route `GET /\w*/[0-9]*`. -/
def routeTableItem : RouteM :=
  ⟨"GET", [.lit '/', .star isWordChar, .lit '/', .star Char.isDigit], .getTableItem⟩

/-- Route `PUT /\w*/`. -/
def routeCreate : RouteM :=
  ⟨"PUT", [.lit '/', .star isWordChar, .lit '/'], .createItem⟩

/-- Route `DELETE /\w*/[0-9]*`. -/
def routeDelete : RouteM :=
  ⟨"DELETE", [.lit '/', .star isWordChar, .lit '/', .star Char.isDigit], .deleteItem⟩

/-- Route `POST /\w*/[0-9]*`. -/
def routeUpdate : RouteM :=
  ⟨"POST", [.lit '/', .star isWordChar, .lit '/', .star Char.isDigit], .updateItem⟩

/-- The fixed route set, in the registration order of initRoutes. -/
def fixedRoutes : List RouteM :=
  [routeRoot, routeTableItems, routeTableItem, routeCreate, routeDelete, routeUpdate]

/-- Query parameters of a request (url.Values, first value per key). -/
abbrev QueryMap := List (String × String)

/-- url.Values lookup. -/
def qFind? : QueryMap → String → Option String
  | [], _ => none
  | (k, v) :: rest, key => if k = key then some v else qFind? rest key

/-- url.Values.Has. -/
def queryHas (q : QueryMap) (key : String) : Bool :=
  (qFind? q key).isSome

/-- url.Values.Get (empty string when absent). -/
def queryGet (q : QueryMap) (key : String) : String :=
  (qFind? q key).getD ""

/-- Value of a nonempty digit run, most significant first. -/
def digitsToNat (ds : List Char) : Nat :=
  ds.foldl (fun a c => 10 * a + (c.toNat - 48)) 0

/-- strconv.Atoi: optional sign, then one or more digits; anything else is
an error (`none`).  The 64-bit range check of the real Atoi is not
modelled; the pagination properties below never rely on overflow. -/
def atoi? (s : String) : Option Int :=
  match s.data with
  | [] => none
  | c :: cs =>
    let ds := if c = '-' || c = '+' then cs else c :: cs
    if !ds.isEmpty && ds.all Char.isDigit then
      some (if c = '-' then -(digitsToNat ds : Int) else (digitsToNat ds : Int))
    else none

/-- getQueryIntValue: the default when the key is absent or its value does
not parse as an integer, the parsed integer verbatim otherwise. -/
def getQueryIntValue (query : QueryMap) (key : String) (defaultValue : Int) : Int :=
  if !queryHas query key then defaultValue
  else
    match atoi? (queryGet query key) with
    | none => defaultValue
    | some n => n

/-- Pagination window. -/
structure Pagination where
  offset : Int
  limit : Int
deriving DecidableEq

/-- getPagination: limit defaults to 5, offset to 0. -/
def getPagination (query : QueryMap) : Pagination :=
  ⟨getQueryIntValue query "offset" 0, getQueryIntValue query "limit" 5⟩

/-- A stored row: column name to SQL value, the primary key included. -/
abbrev Row := FieldMap

/-- The modelled database engine state for one table: the stored rows plus
the next auto-increment identifier.  The engine is an external collaborator
of the program (spec section 1); this minimal model gives INSERT
append-with-fresh-id and SELECT-by-primary-key semantics. -/
structure DbState where
  rows : List Row
  nextId : Int
deriving DecidableEq

/-- createItem: INSERT exactly the columns of the sanitized map; the engine
stores them with the fresh auto-increment primary key and LastInsertId
returns that key. -/
def createItem (st : DbState) (form : FieldMap) (primaryKey : String) :
    Int × DbState :=
  let row : Row := (primaryKey, .num st.nextId) :: form
  (st.nextId, ⟨st.rows ++ [row], st.nextId + 1⟩)

/-- Row decoding rule of getItem for one projected column: a string-like
column is read through sql.NullString (valid gives the string, invalid
gives null); any other column passes the driver value through, with SQL
NULL as null. -/
def decodeVal (c : Col) (v? : Option Value) : Value :=
  if isStringType c.dbTypeName then
    match v? with
    | some (.str s) => .str s
    | _ => .null
  else
    match v? with
    | some v => v
    | none => .null

/-- Decoded record of a stored row, one field per catalog column. -/
def decodeRow (columns : List Col) (r : Row) : FieldMap :=
  columns.map (fun c => (c.name, decodeVal c (alFind? r c.name)))

/-- getItem: `SELECT * FROM t WHERE pk = ?`, then the per-column NULL-aware
decode; no row is the record-not-found error. -/
def getItem (st : DbState) (columns : List Col) (primaryKey : String)
    (pkValue : Value) : Except String FieldMap :=
  match st.rows.find? (fun r => decide (alFind? r primaryKey = some pkValue)) with
  | none => .error "record not found"
  | some r => .ok (decodeRow columns r)

/-- handlerCreateItem after table lookup and JSON decode: validate the body
with the create policy, then run the INSERT and return the new primary-key
value with the updated engine state. -/
def handlerCreateItem (st : DbState) (columns : List Col)
    (primaryKey : String) (form : FieldMap) :
    Except PFError (Int × DbState) :=
  match (processForm form columns primaryKey createOptions).2 with
  | .error e => .error e
  | .ok newForm => .ok (createItem st newForm primaryKey)

/-- getTableNames, result of the SHOW TABLES query as the explorer sees it:
either the query itself fails, or it yields a list of row scans each of
which may fail.  Returns the collected names and the error value the Go
function returns; a failing query is answered with the empty list and a
nil error. -/
def getTableNamesM (q : Except String (List (Except String String))) :
    List String × Option String :=
  match q with
  | .error _ => ([], none)
  | .ok rows => scanNames [] rows
where
  /-- The row-scan loop of getTableNames. -/
  scanNames (acc : List String) :
      List (Except String String) → List String × Option String
    | [] => (acc, none)
    | .error e :: _ => (acc, some e)
    | .ok name :: rest => scanNames (acc ++ [name]) rest

/-- NewDbExplorer restricted to the table-name discovery step: propagate a
non-nil error from getTableNames, otherwise succeed with the discovered
catalog as TableNames. -/
def NewDbExplorerM (q : Except String (List (Except String String))) :
    Except String (List String) :=
  match getTableNamesM q with
  | (_, some e) => .error e
  | (names, none) => .ok names

theorem alFind?_insert_self (m : FieldMap) (k : String) (v : Value) :
    alFind? (alInsert m k v) k = some v := by
  induction m with
  | nil => simp [alInsert, alFind?]
  | cons kv rest ih =>
    obtain ⟨k2, w⟩ := kv
    by_cases h : k2 = k
    · simp [alInsert, h, alFind?]
    · simp [alInsert, h, alFind?, ih]

theorem alFind?_insert_ne (m : FieldMap) (k key : String) (v : Value)
    (h : k ≠ key) : alFind? (alInsert m k v) key = alFind? m key := by
  induction m with
  | nil => simp [alInsert, alFind?, h]
  | cons kv rest ih =>
    obtain ⟨k2, w⟩ := kv
    by_cases h2 : k2 = k
    · subst h2
      simp [alInsert, alFind?, h]
    · simp [alInsert, h2, alFind?, ih]

theorem alKeys_isSome (m : FieldMap) (key : String) :
    key ∈ alKeys m ↔ (alFind? m key).isSome := by
  induction m with
  | nil => simp [alKeys, alFind?]
  | cons kv rest ih =>
    obtain ⟨k2, w⟩ := kv
    by_cases h2 : k2 = key
    · simp [alKeys, alFind?, h2]
    · have hne : ¬ key = k2 := fun he => h2 he.symm
      simp [alKeys, alFind?, h2, hne, ih]

theorem alKeys_insert (m : FieldMap) (k key : String) (v : Value)
    (h : key ∈ alKeys (alInsert m k v)) : key ∈ alKeys m ∨ key = k := by
  by_cases hk : key = k
  · exact Or.inr hk
  · left
    rw [alKeys_isSome] at h ⊢
    rwa [alFind?_insert_ne m k key v (fun he => hk he.symm)] at h

theorem alFind?_erase_self (m : FieldMap) (k : String) :
    alFind? (alErase m k) k = none := by
  induction m with
  | nil => simp [alErase, alFind?]
  | cons kv rest ih =>
    obtain ⟨k2, w⟩ := kv
    by_cases h2 : k2 = k
    · simp [alErase, h2, ih]
    · simp [alErase, h2, alFind?, ih]

theorem alFind?_erase_ne (m : FieldMap) (k key : String) (h : key ≠ k) :
    alFind? (alErase m k) key = alFind? m key := by
  induction m with
  | nil => simp [alErase]
  | cons kv rest ih =>
    obtain ⟨k2, w⟩ := kv
    by_cases h2 : k2 = k
    · subst h2
      have hne : ¬ k2 = key := fun he => h he.symm
      simp [alErase, alFind?, hne, ih]
    · by_cases hk : k2 = key
      · subst hk
        simp [alErase, h2, alFind?, ih]
      · simp [alErase, h2, alFind?, hk, ih]

theorem alFind?_filter (m : FieldMap) (keep : List String) (key : String)
    (h : key ∈ keep) : alFind? (alFilter m keep) key = alFind? m key := by
  induction m with
  | nil => simp [alFilter, alFind?]
  | cons kv rest ih =>
    obtain ⟨k2, w⟩ := kv
    by_cases h2 : k2 ∈ keep
    · simp only [alFilter, if_pos h2, alFind?, ih]
    · have hne : k2 ≠ key := fun he => h2 (he ▸ h)
      simp [alFilter, h2, alFind?, hne, ih]

theorem pf_step_err (form nf : FieldMap) (pk : String)
    (opts : ValidationOptions) (c : Col) (rest : List Col)
    (h : colClean form pk opts c = false) :
    processFormAux pk opts form nf (c :: rest) = (form, .error (stepError c)) := by
  cases hok : c.nullableOk with
  | false => simp [processFormAux, hok, stepError]
  | true =>
    cases hval : alFind? form c.name with
    | none =>
      by_cases hpk : c.name = pk
      · simp_all [processFormAux, colClean, stepError]
      · cases hig : opts.ignoreNotProvidedField <;>
          cases hnl : c.nullable <;>
            cases hwd : opts.withDefaultValues <;>
              simp_all [processFormAux, colClean, stepError]
    | some v =>
      by_cases hpk : c.name = pk
      · cases higp : opts.ignorePk <;>
          simp_all [processFormAux, colClean, stepError]
      · cases v with
        | num n =>
          by_cases ht : isNumberType c.dbTypeName = true <;>
            simp_all [processFormAux, colClean, stepError, typeMismatch]
        | str s =>
          by_cases ht : isStringType c.dbTypeName = true <;>
            simp_all [processFormAux, colClean, stepError, typeMismatch]
        | bool b => simp_all [processFormAux, colClean, stepError, typeMismatch]
        | null =>
          cases hnl : c.nullable <;>
            simp_all [processFormAux, colClean, stepError, typeMismatch]

theorem pf_step_ok (form nf : FieldMap) (pk : String)
    (opts : ValidationOptions) (c : Col) (rest : List Col)
    (h : colClean form pk opts c = true) :
    processFormAux pk opts form nf (c :: rest) =
      processFormAux pk opts form (stepInsert form pk opts nf c) rest := by
  cases hok : c.nullableOk with
  | false => simp_all [colClean]
  | true =>
    cases hval : alFind? form c.name with
    | none =>
      by_cases hpk : c.name = pk
      · simp_all [processFormAux, colClean, stepInsert]
      · cases hig : opts.ignoreNotProvidedField <;>
          cases hnl : c.nullable <;>
            cases hwd : opts.withDefaultValues <;>
              simp_all [processFormAux, colClean, stepInsert]
    | some v =>
      by_cases hpk : c.name = pk
      · cases higp : opts.ignorePk <;>
          simp_all [processFormAux, colClean, stepInsert]
      · cases v with
        | num n =>
          by_cases ht : isNumberType c.dbTypeName = true <;>
            simp_all [processFormAux, colClean, stepInsert, typeMismatch]
        | str s =>
          by_cases ht : isStringType c.dbTypeName = true <;>
            simp_all [processFormAux, colClean, stepInsert, typeMismatch]
        | bool b => simp_all [processFormAux, colClean, stepInsert, typeMismatch]
        | null =>
          cases hnl : c.nullable <;>
            simp_all [processFormAux, colClean, stepInsert, typeMismatch]

theorem pf_fst (pk : String) (opts : ValidationOptions) (form : FieldMap)
    (columns : List Col) : ∀ nf : FieldMap,
    (processFormAux pk opts form nf columns).1 = form := by
  induction columns with
  | nil => intro nf; rfl
  | cons c rest ih =>
    intro nf
    by_cases h : colClean form pk opts c = true
    · rw [pf_step_ok form nf pk opts c rest h]
      exact ih _
    · rw [pf_step_err form nf pk opts c rest (by simpa using h)]

theorem pf_all_clean (pk : String) (opts : ValidationOptions)
    (form : FieldMap) (columns : List Col)
    (h : ∀ c ∈ columns, colClean form pk opts c = true) : ∀ nf : FieldMap,
    processFormAux pk opts form nf columns =
      (form, .ok (cleanRun form pk opts nf columns)) := by
  induction columns with
  | nil => intro nf; rfl
  | cons c rest ih =>
    intro nf
    rw [pf_step_ok form nf pk opts c rest (h c (List.mem_cons_self c rest))]
    rw [ih (fun d hd => h d (List.mem_cons_of_mem c hd))]
    rfl

theorem pf_first_offender (pk : String) (opts : ValidationOptions)
    (form : FieldMap) (pre post : List Col) (c : Col)
    (hpre : ∀ d ∈ pre, colClean form pk opts d = true)
    (hc : colClean form pk opts c = false) : ∀ nf : FieldMap,
    processFormAux pk opts form nf (pre ++ c :: post) =
      (form, .error (stepError c)) := by
  induction pre with
  | nil => intro nf; exact pf_step_err form nf pk opts c post hc
  | cons d rest ih =>
    intro nf
    rw [List.cons_append]
    rw [pf_step_ok form nf pk opts d _ (hpre d (List.mem_cons_self d rest))]
    exact ih (fun e he => hpre e (List.mem_cons_of_mem d he)) _

theorem pf_ok_clean (pk : String) (opts : ValidationOptions)
    (form : FieldMap) (columns : List Col) : ∀ (nf m : FieldMap),
    (processFormAux pk opts form nf columns).2 = .ok m →
      (∀ c ∈ columns, colClean form pk opts c = true) ∧
        m = cleanRun form pk opts nf columns := by
  induction columns with
  | nil =>
    intro nf m h
    refine ⟨by simp, ?_⟩
    simpa [processFormAux, cleanRun] using h.symm
  | cons c rest ih =>
    intro nf m h
    by_cases hcl : colClean form pk opts c = true
    · rw [pf_step_ok form nf pk opts c rest hcl] at h
      obtain ⟨hall, hm⟩ := ih _ m h
      refine ⟨?_, hm⟩
      intro d hd
      rcases List.mem_cons.mp hd with hd | hd
      · exact hd ▸ hcl
      · exact hall d hd
    · rw [pf_step_err form nf pk opts c rest (by simpa using hcl)] at h
      simp at h

theorem stepInsert_find_ne (form : FieldMap) (pk : String)
    (opts : ValidationOptions) (nf : FieldMap) (c : Col) (key : String)
    (h : key ≠ c.name) :
    alFind? (stepInsert form pk opts nf c) key = alFind? nf key := by
  have hne : c.name ≠ key := fun he => h he.symm
  unfold stepInsert
  by_cases hpk : c.name = pk
  · simp [hpk]
  · simp only [if_neg hpk]
    cases hval : alFind? form c.name with
    | some v => simp [alFind?_insert_ne _ _ _ _ hne]
    | none =>
      by_cases hig : opts.ignoreNotProvidedField = true
      · simp [hig]
      · cases hnl : c.nullable <;>
          simp [hig, hnl, alFind?_insert_ne _ _ _ _ hne]

theorem cleanRun_cons (form : FieldMap) (pk : String)
    (opts : ValidationOptions) (nf : FieldMap) (c : Col) (rest : List Col) :
    cleanRun form pk opts nf (c :: rest) =
      cleanRun form pk opts (stepInsert form pk opts nf c) rest := rfl

theorem cleanRun_append (form : FieldMap) (pk : String)
    (opts : ValidationOptions) (nf : FieldMap) (l1 l2 : List Col) :
    cleanRun form pk opts nf (l1 ++ l2) =
      cleanRun form pk opts (cleanRun form pk opts nf l1) l2 := by
  simp [cleanRun, List.foldl_append]

theorem cleanRun_find_not_mem (form : FieldMap) (pk : String)
    (opts : ValidationOptions) (key : String) (columns : List Col)
    (h : ∀ c ∈ columns, c.name ≠ key) : ∀ nf : FieldMap,
    alFind? (cleanRun form pk opts nf columns) key = alFind? nf key := by
  induction columns with
  | nil => intro nf; rfl
  | cons c rest ih =>
    intro nf
    rw [cleanRun_cons,
      ih (fun d hd => h d (List.mem_cons_of_mem c hd)),
      stepInsert_find_ne form pk opts nf c key
        (fun he => h c (List.mem_cons_self c rest) he.symm)]

theorem stepInsert_find_pk (form : FieldMap) (pk : String)
    (opts : ValidationOptions) (nf : FieldMap) (c : Col) :
    alFind? (stepInsert form pk opts nf c) pk = alFind? nf pk := by
  by_cases hpk : c.name = pk
  · simp [stepInsert, hpk]
  · exact stepInsert_find_ne form pk opts nf c pk (fun he => hpk he.symm)

theorem cleanRun_find_pk (form : FieldMap) (pk : String)
    (opts : ValidationOptions) (columns : List Col) : ∀ nf : FieldMap,
    alFind? (cleanRun form pk opts nf columns) pk = alFind? nf pk := by
  induction columns with
  | nil => intro nf; rfl
  | cons c rest ih =>
    intro nf
    rw [cleanRun_cons, ih, stepInsert_find_pk]

theorem cleanRun_preserve (form : FieldMap) (pk : String)
    (opts : ValidationOptions) (key : String) (v : Value)
    (hkey : key ≠ pk) (hform : alFind? form key = some v)
    (columns : List Col) : ∀ nf : FieldMap, alFind? nf key = some v →
    alFind? (cleanRun form pk opts nf columns) key = some v := by
  induction columns with
  | nil => intro nf h; exact h
  | cons c rest ih =>
    intro nf h
    rw [cleanRun_cons]
    refine ih _ ?_
    by_cases hc : c.name = key
    · unfold stepInsert
      rw [if_neg (hc ▸ hkey), hc, hform]
      exact alFind?_insert_self nf key v
    · rw [stepInsert_find_ne form pk opts nf c key (fun he => hc he.symm)]
      exact h

theorem cleanRun_keys (form : FieldMap) (pk : String)
    (opts : ValidationOptions) (key : String) (columns : List Col) :
    ∀ nf : FieldMap, key ∈ alKeys (cleanRun form pk opts nf columns) →
      key ∈ alKeys nf ∨ key ∈ columns.map Col.name := by
  induction columns with
  | nil => intro nf h; exact Or.inl h
  | cons c rest ih =>
    intro nf h
    rw [cleanRun_cons] at h
    rcases ih _ h with h2 | h2
    · unfold stepInsert at h2
      by_cases hpk : c.name = pk
      · rw [if_pos hpk] at h2
        exact Or.inl h2
      · rw [if_neg hpk] at h2
        have step : key ∈ alKeys nf ∨ key = c.name := by
          cases hval : alFind? form c.name with
          | some v =>
            rw [hval] at h2
            exact alKeys_insert nf c.name key v h2
          | none =>
            rw [hval] at h2
            by_cases hig : opts.ignoreNotProvidedField = true
            · rw [if_pos hig] at h2
              exact Or.inl h2
            · rw [if_neg hig] at h2
              cases hnl : c.nullable with
              | false =>
                rw [hnl] at h2
                exact alKeys_insert nf c.name key _ (by simpa using h2)
              | true =>
                rw [hnl] at h2
                exact alKeys_insert nf c.name key _ (by simpa using h2)
        rcases step with h3 | h3
        · exact Or.inl h3
        · exact Or.inr (by simp [h3])
    · right
      rw [List.map_cons]
      exact List.mem_cons_of_mem _ h2

theorem colClean_filter (form : FieldMap) (pk : String)
    (opts : ValidationOptions) (keep : List String) (c : Col)
    (h : c.name ∈ keep) :
    colClean (alFilter form keep) pk opts c = colClean form pk opts c := by
  simp only [colClean, alFind?_filter form keep c.name h]

theorem stepInsert_filter (form : FieldMap) (pk : String)
    (opts : ValidationOptions) (keep : List String) (nf : FieldMap) (c : Col)
    (h : c.name ∈ keep) :
    stepInsert (alFilter form keep) pk opts nf c = stepInsert form pk opts nf c := by
  simp only [stepInsert, alFind?_filter form keep c.name h]

theorem pf_filter (pk : String) (opts : ValidationOptions) (form : FieldMap)
    (keep : List String) (columns : List Col)
    (hcols : ∀ c ∈ columns, c.name ∈ keep) : ∀ nf : FieldMap,
    (processFormAux pk opts form nf columns).2 =
      (processFormAux pk opts (alFilter form keep) nf columns).2 := by
  induction columns with
  | nil => intro nf; rfl
  | cons c rest ih =>
    intro nf
    have hmem : c.name ∈ keep := hcols c (List.mem_cons_self c rest)
    have ih2 := ih (fun d hd => hcols d (List.mem_cons_of_mem c hd))
    by_cases hcl : colClean form pk opts c = true
    · rw [pf_step_ok form nf pk opts c rest hcl,
        pf_step_ok (alFilter form keep) nf pk opts c rest
          ((colClean_filter form pk opts keep c hmem).trans hcl),
        stepInsert_filter form pk opts keep nf c hmem]
      exact ih2 _
    · rw [pf_step_err form nf pk opts c rest (by simpa using hcl),
        pf_step_err (alFilter form keep) nf pk opts c rest
          ((colClean_filter form pk opts keep c hmem).trans (by simpa using hcl))]

theorem colClean_erase_pk (form : FieldMap) (pk : String)
    (opts : ValidationOptions) (c : Col) (hig : opts.ignorePk = true) :
    colClean (alErase form pk) pk opts c = colClean form pk opts c := by
  by_cases hpk : c.name = pk
  · simp [colClean, hpk, hig]
  · simp only [colClean, if_neg hpk,
      alFind?_erase_ne form pk c.name (fun he => hpk he)]

theorem stepInsert_erase_pk (form : FieldMap) (pk : String)
    (opts : ValidationOptions) (nf : FieldMap) (c : Col) :
    stepInsert (alErase form pk) pk opts nf c = stepInsert form pk opts nf c := by
  by_cases hpk : c.name = pk
  · simp [stepInsert, hpk]
  · simp only [stepInsert, if_neg hpk,
      alFind?_erase_ne form pk c.name (fun he => hpk he)]

theorem pf_erase_pk (pk : String) (opts : ValidationOptions) (form : FieldMap)
    (columns : List Col) (hig : opts.ignorePk = true) : ∀ nf : FieldMap,
    (processFormAux pk opts form nf columns).2 =
      (processFormAux pk opts (alErase form pk) nf columns).2 := by
  induction columns with
  | nil => intro nf; rfl
  | cons c rest ih =>
    intro nf
    by_cases hcl : colClean form pk opts c = true
    · rw [pf_step_ok form nf pk opts c rest hcl,
        pf_step_ok (alErase form pk) nf pk opts c rest
          ((colClean_erase_pk form pk opts c hig).trans hcl),
        stepInsert_erase_pk form pk opts nf c]
      exact ih _
    · rw [pf_step_err form nf pk opts c rest (by simpa using hcl),
        pf_step_err (alErase form pk) nf pk opts c rest
          ((colClean_erase_pk form pk opts c hig).trans (by simpa using hcl))]

theorem typeCorrect_not_mismatch (v : Value) (c : Col)
    (h : typeCorrect v c = true) : typeMismatch v c = false := by
  cases v <;> simp_all [typeCorrect, typeMismatch]

theorem count_eq_of_matches (ch : Char) : ∀ (p : List Char) (ts : List Tok),
    (∀ f ∈ starPreds ts, f ch = false) → matchesTokens ts p = true →
    p.count ch = litCount ch ts := by
  intro p
  induction p with
  | nil =>
    intro ts
    induction ts with
    | nil => intro _ _; simp [litCount]
    | cons t rest iht =>
      intro hstar hm
      cases t with
      | lit c2 => simp [matchesTokens] at hm
      | star f =>
        simp only [matchesTokens] at hm
        rw [litCount]
        exact iht (fun g hg => hstar g (by simp [starPreds, hg])) hm
  | cons x xs ihp =>
    intro ts
    induction ts with
    | nil => intro _ hm; simp [matchesTokens] at hm
    | cons t rest iht =>
      intro hstar hm
      cases t with
      | lit c2 =>
        simp only [matchesTokens, Bool.and_eq_true, decide_eq_true_eq] at hm
        obtain ⟨hc, hm2⟩ := hm
        subst hc
        have htail := ihp rest (fun g hg => hstar g (by simp [starPreds, hg])) hm2
        rw [List.count_cons, litCount]
        simp only [beq_iff_eq]
        by_cases hx : c2 = ch
        · rw [if_pos hx]
          omega
        · rw [if_neg hx]
          omega
      | star f =>
        simp only [matchesTokens, Bool.or_eq_true, Bool.and_eq_true] at hm
        rcases hm with hm | ⟨hfx, hm⟩
        · rw [litCount]
          exact iht (fun g hg => hstar g (by simp [starPreds, hg])) hm
        · have hx : ¬ x = ch := by
            intro he
            rw [he, hstar f (by simp [starPreds])] at hfx
            exact Bool.false_ne_true hfx
          have hrest := ihp (.star f :: rest) hstar hm
          simpa [List.count_cons, hx] using hrest

theorem matches_root (p : List Char)
    (h : matchesTokens [Tok.lit '/'] p = true) : p = ['/'] := by
  cases p with
  | nil => simp [matchesTokens] at h
  | cons x xs =>
    simp only [matchesTokens, Bool.and_eq_true, decide_eq_true_eq] at h
    obtain ⟨hx, h2⟩ := h
    cases xs with
    | nil => simp [hx.symm]
    | cons y ys => simp [matchesTokens] at h2

theorem count_slash_items (p : List Char)
    (h : matchesTokens [Tok.lit '/', Tok.star isWordChar] p = true) :
    p.count '/' = 1 := by
  have hstar : ∀ f ∈ starPreds [Tok.lit '/', Tok.star isWordChar],
      f '/' = false := by
    intro f hf
    simp only [starPreds, List.mem_singleton] at hf
    subst hf
    decide
  have hcount := count_eq_of_matches '/' p _ hstar h
  simpa [litCount] using hcount

theorem count_slash_item (p : List Char)
    (h : matchesTokens
      [Tok.lit '/', Tok.star isWordChar, Tok.lit '/', Tok.star Char.isDigit]
      p = true) :
    p.count '/' = 2 := by
  have hstar : ∀ f ∈ starPreds
      [Tok.lit '/', Tok.star isWordChar, Tok.lit '/', Tok.star Char.isDigit],
      f '/' = false := by
    intro f hf
    simp only [starPreds, List.mem_cons, List.not_mem_nil, or_false] at hf
    rcases hf with hf | hf <;> subst hf <;> decide
  have hcount := count_eq_of_matches '/' p _ hstar h
  simpa [litCount] using hcount

theorem cleanRun_find_submitted (form : FieldMap) (pk : String)
    (opts : ValidationOptions) (columns : List Col) (c : Col) (v : Value)
    (hc : c ∈ columns) (hpk : c.name ≠ pk)
    (hval : alFind? form c.name = some v) :
    alFind? (cleanRun form pk opts [] columns) c.name = some v := by
  obtain ⟨pre, post, rfl⟩ := List.append_of_mem hc
  rw [cleanRun_append, cleanRun_cons]
  apply cleanRun_preserve form pk opts c.name v hpk hval post
  unfold stepInsert
  rw [if_neg hpk, hval]
  exact alFind?_insert_self _ _ _

theorem pf_ok_submitted (pk : String) (opts : ValidationOptions)
    (form : FieldMap) (columns : List Col) (c : Col) (v : Value)
    (hc : c ∈ columns) (hpk : c.name ≠ pk)
    (hval : alFind? form c.name = some v) (m : FieldMap)
    (hm : (processForm form columns pk opts).2 = .ok m) :
    alFind? m c.name = some v := by
  obtain ⟨hall, rfl⟩ := pf_ok_clean pk opts form columns [] m hm
  exact cleanRun_find_submitted form pk opts columns c v hc hpk hval

theorem decodeRow_find (r : Row) (c : Col) : ∀ columns : List Col,
    c ∈ columns → (columns.map Col.name).Nodup →
    alFind? (decodeRow columns r) c.name =
      some (decodeVal c (alFind? r c.name)) := by
  intro columns
  induction columns with
  | nil => intro hmem; simp at hmem
  | cons d rest ih =>
    intro hmem hnodup
    rcases List.mem_cons.mp hmem with rfl | hmem2
    · simp [decodeRow, alFind?]
    · have hnd : d.name ∉ rest.map Col.name ∧ (rest.map Col.name).Nodup := by
        rw [List.map_cons, List.nodup_cons] at hnodup
        exact hnodup
      have hne : d.name ≠ c.name := by
        intro he
        exact hnd.1 (he ▸ List.mem_map_of_mem Col.name hmem2)
      simp only [decodeRow, List.map_cons, alFind?, if_neg hne]
      exact ih hmem2 hnd.2

theorem decodeVal_typeCorrect (c : Col) (v : Value)
    (h : typeCorrect v c = true) : decodeVal c (some v) = v := by
  unfold decodeVal
  by_cases hs : isStringType c.dbTypeName = true
  · cases v with
    | str s => simp [hs]
    | null => simp [hs]
    | num n =>
      exfalso
      have hn : c.dbTypeName = "NUMBER" := by simpa [typeCorrect, isNumberType] using h
      rw [hn] at hs
      exact absurd hs (by decide)
    | bool b => simp_all [typeCorrect]
  · simp [hs]

theorem find?_append_of_none {α : Type} (p : α → Bool) (l1 l2 : List α)
    (h : ∀ x ∈ l1, p x = false) : (l1 ++ l2).find? p = l2.find? p := by
  induction l1 with
  | nil => rfl
  | cons a rest ih =>
    rw [List.cons_append, List.find?]
    rw [h a (List.mem_cons_self a rest)]
    exact ih (fun x hx => h x (List.mem_cons_of_mem a hx))

theorem serveHTTP_find (routes : List RouteM) (m : String) (p : List Char) :
    serveHTTP routes m p =
      Option.map RouteM.handler
        (routes.find? (fun r => decide (r.method = m) && matchesTokens r.pattern p)) := by
  induction routes with
  | nil => rfl
  | cons r rs ih =>
    by_cases hm : r.method = m
    · cases hmt : matchesTokens r.pattern p with
      | true => simp [serveHTTP, hm, List.find?, hmt]
      | false => simp [serveHTTP, hm, List.find?, hmt, ih]
    · simp [serveHTTP, hm, List.find?, ih]

/-- C10: the validator is read-only on its input.  The submitted map is
threaded through processForm as the state a Go map write would mutate, and
comes back unchanged whether validation succeeds or fails; the sanitized
map is accumulated separately starting from the empty map. -/
theorem c10_validator_read_only (form : FieldMap) (columns : List Col)
    (pk : String) (opts : ValidationOptions) :
    (processForm form columns pk opts).1 = form :=
  pf_fst pk opts form columns []

/-- C5: ServeHTTP scans the routes in registration order and invokes the
handler of the first route whose method equals the request method and whose
anchored pattern matches the full path (the find-first characterization);
`none` is the 404 not-found reply.  The closed conjunct shows the match is
anchored rather than prefix-based: no GET route matches /a/b even though
the matching path /a is a prefix of it. -/
theorem c5_dispatch_first_match :
    (∀ (routes : List RouteM) (m : String) (p : List Char),
      serveHTTP routes m p =
        Option.map RouteM.handler
          (routes.find? (fun r => decide (r.method = m) && matchesTokens r.pattern p))) ∧
    serveHTTP fixedRoutes "GET" ['/', 'a', '/', 'b'] = none := by
  constructor
  · exact serveHTTP_find
  · simp [serveHTTP, fixedRoutes, routeRoot, routeTableItems, routeTableItem,
      routeCreate, routeDelete, routeUpdate, matchesTokens, isWordChar]

/-- C9 (code bug in getTableNames): when the SHOW TABLES query itself
fails, the error branch returns the empty name list together with a nil
error, so NewDbExplorer succeeds and yields a service whose table catalog
is empty instead of failing as the spec requires. -/
theorem c9_listing_failure_not_fatal :
    getTableNamesM (.error "dial tcp: connection refused") = ([], none) ∧
    NewDbExplorerM (.error "dial tcp: connection refused") = .ok [] :=
  ⟨rfl, rfl⟩

/-- C8 counterexample: the query string limit=-3 parses successfully, so
getPagination returns the negative limit -3 verbatim; pagination values
are not always non-negative. -/
theorem c8_negative_limit_counterexample :
    (getPagination [("limit", "-3")]).limit = -3 ∧
    ¬ (0 ≤ (getPagination [("limit", "-3")]).limit) := by
  decide

/-- C8 (amended): a pagination parameter that is absent or unparsable
silently falls back to its default (limit 5, offset 0) and never yields an
error; a parsable value is returned verbatim, so it may be negative. -/
theorem c8_pagination_defaults (q : QueryMap) :
    (queryHas q "limit" = false → (getPagination q).limit = 5) ∧
    (atoi? (queryGet q "limit") = none → (getPagination q).limit = 5) ∧
    (∀ n : Int, queryHas q "limit" = true →
      atoi? (queryGet q "limit") = some n → (getPagination q).limit = n) ∧
    (queryHas q "offset" = false → (getPagination q).offset = 0) ∧
    (atoi? (queryGet q "offset") = none → (getPagination q).offset = 0) ∧
    (∀ n : Int, queryHas q "offset" = true →
      atoi? (queryGet q "offset") = some n → (getPagination q).offset = n) := by
  refine ⟨fun h => ?_, fun h => ?_, fun n h1 h2 => ?_, fun h => ?_, fun h => ?_,
    fun n h1 h2 => ?_⟩
  · simp [getPagination, getQueryIntValue, h]
  · cases hq : queryHas q "limit" <;>
      simp [getPagination, getQueryIntValue, hq, h]
  · simp [getPagination, getQueryIntValue, h1, h2]
  · simp [getPagination, getQueryIntValue, h]
  · cases hq : queryHas q "offset" <;>
      simp [getPagination, getQueryIntValue, hq, h]
  · simp [getPagination, getQueryIntValue, h1, h2]

/-- Witness for the amended C8 theorem at concrete query strings: an empty
query gives the defaults, limit=7 is returned verbatim, and the unparsable
offset=abc falls back to its default. -/
theorem c8_pagination_defaults_witness :
    (getPagination []).limit = 5 ∧ (getPagination []).offset = 0 ∧
    (getPagination [("limit", "7"), ("offset", "abc")]).limit = 7 ∧
    (getPagination [("limit", "7"), ("offset", "abc")]).offset = 0 :=
  ⟨(c8_pagination_defaults []).1 rfl,
   (c8_pagination_defaults []).2.2.2.1 rfl,
   (c8_pagination_defaults [("limit", "7"), ("offset", "abc")]).2.2.1 7
     (by decide) (by decide),
   (c8_pagination_defaults [("limit", "7"), ("offset", "abc")]).2.2.2.2.1
     (by decide)⟩

/-- C1: for a non-primary-key column with a submitted value, a runtime-kind
mismatch (a number for a non-numeric column, a string for a non-string
column, null for a non-nullable column) makes validation fail naming that
column — the first such column in catalog order, since processForm stops at
the first failing column — and the handler turns the failure into status
400 with the body error field "field NAME have invalid type"; without a
mismatch the submitted value is copied unchanged into the sanitized map
whenever validation succeeds. -/
theorem c1_type_check (form : FieldMap) (pre post : List Col) (c : Col)
    (pk : String) (opts : ValidationOptions) (v : Value)
    (hok : c.nullableOk = true) (hpk : c.name ≠ pk)
    (hval : alFind? form c.name = some v) :
    (typeMismatch v c = true →
      (∀ d ∈ pre, colClean form pk opts d = true) →
      (processForm form (pre ++ c :: post) pk opts).2 = .error (.validation c.name) ∧
      formFailureReply (.validation c.name) =
        ⟨400, ⟨"field " ++ c.name ++ " have invalid type"⟩⟩) ∧
    (∀ m, (processForm form (pre ++ c :: post) pk opts).2 = .ok m →
      alFind? m c.name = some v) := by
  constructor
  · intro hmis hpre
    have hunclean : colClean form pk opts c = false := by
      simp [colClean, hok, hpk, hval, hmis]
    constructor
    · unfold processForm
      rw [pf_first_offender pk opts form pre post c hpre hunclean []]
      simp [stepError, hok]
    · rfl
  · intro m hm
    exact pf_ok_submitted pk opts form _ c v
      (List.mem_append.mpr (Or.inr (List.mem_cons_self c post))) hpk hval m hm

/-- Witness for C1 at a concrete input: submitting the number 3 for the
non-numeric column age fails validation naming age with the 400 reply, and
a well-typed submission for the column title is copied unchanged. -/
theorem c1_type_check_witness :
    ((processForm [("age", Value.num 3)]
        [⟨"age", "VARCHAR", true, true⟩] "id" updateOptions).2 =
      .error (.validation "age") ∧
      formFailureReply (.validation "age") =
        ⟨400, ⟨"field age have invalid type"⟩⟩) ∧
    alFind? [("title", Value.str "hi")] "title" = some (.str "hi") :=
  ⟨(c1_type_check [("age", Value.num 3)] [] [] ⟨"age", "VARCHAR", true, true⟩
      "id" updateOptions (Value.num 3) (by decide) (by decide) (by decide)).1
      (by decide) (by simp),
   (c1_type_check [("title", Value.str "hi")] [] []
      ⟨"title", "VARCHAR", true, true⟩ "id" updateOptions (Value.str "hi")
      (by decide) (by decide) (by decide)).2
      [("title", Value.str "hi")] (by decide)⟩

/-- C2: with ignoreMissingFields false, a column with no submitted value
becomes null in the sanitized map when it is nullable; a non-nullable
missing column receives the type default when substituteDefaults is true;
and with substituteDefaults false validation fails naming that column (the
first failing column in catalog order). -/
theorem c2_missing_field (form : FieldMap) (pre post : List Col) (c : Col)
    (pk : String) (opts : ValidationOptions)
    (hopts : opts.ignoreNotProvidedField = false)
    (hok : c.nullableOk = true) (hpk : c.name ≠ pk)
    (hmiss : alFind? form c.name = none)
    (hnodup : (((pre ++ c :: post)).map Col.name).Nodup) :
    (c.nullable = true →
      ∀ m, (processForm form (pre ++ c :: post) pk opts).2 = .ok m →
        alFind? m c.name = some .null) ∧
    (c.nullable = false → opts.withDefaultValues = true →
      ∀ m, (processForm form (pre ++ c :: post) pk opts).2 = .ok m →
        alFind? m c.name = some (getDefaultValue c.dbTypeName)) ∧
    (c.nullable = false → opts.withDefaultValues = false →
      (∀ d ∈ pre, colClean form pk opts d = true) →
      (processForm form (pre ++ c :: post) pk opts).2 = .error (.validation c.name)) := by
  have hpost : ∀ d ∈ post, d.name ≠ c.name := by
    have h2 : (c.name :: post.map Col.name).Nodup := by
      rw [List.map_append, List.map_cons] at hnodup
      exact hnodup.of_append_right
    intro d hd he
    exact (List.nodup_cons.mp h2).1 (he ▸ List.mem_map_of_mem Col.name hd)
  refine ⟨fun hnl m hm => ?_, fun hnl hwd m hm => ?_, fun hnl hwd hpre => ?_⟩
  · obtain ⟨hall, rfl⟩ := pf_ok_clean pk opts form _ [] m hm
    rw [cleanRun_append, cleanRun_cons,
      cleanRun_find_not_mem form pk opts c.name post hpost]
    unfold stepInsert
    rw [if_neg hpk, hmiss]
    simp [hopts, hnl, alFind?_insert_self]
  · obtain ⟨hall, rfl⟩ := pf_ok_clean pk opts form _ [] m hm
    rw [cleanRun_append, cleanRun_cons,
      cleanRun_find_not_mem form pk opts c.name post hpost]
    unfold stepInsert
    rw [if_neg hpk, hmiss]
    simp [hopts, hnl, alFind?_insert_self]
  · have hunclean : colClean form pk opts c = false := by
      simp [colClean, hok, hpk, hmiss, hopts, hnl, hwd]
    unfold processForm
    rw [pf_first_offender pk opts form pre post c hpre hunclean []]
    simp [stepError, hok]

/-- Witness for C2 at a concrete catalog: a missing nullable column becomes
null, a missing non-nullable numeric column becomes 0 under the create
policy, and a missing non-nullable column fails under a policy without
default substitution. -/
theorem c2_missing_field_witness :
    alFind? [("note", Value.null), ("n", Value.num 0)] "note" = some .null ∧
    alFind? [("note", Value.null), ("n", Value.num 0)] "n" = some (.num 0) ∧
    (processForm [] [⟨"n", "NUMBER", false, true⟩] "id"
        ⟨false, false, false⟩).2 = .error (.validation "n") := by
  have hcols : ((([] : List Col) ++
      (⟨"note", "TEXT", true, true⟩ : Col) ::
        [⟨"n", "NUMBER", false, true⟩]).map Col.name).Nodup := by decide
  have hm : (processForm ([] : FieldMap)
      (([] : List Col) ++ (⟨"note", "TEXT", true, true⟩ : Col) ::
        [⟨"n", "NUMBER", false, true⟩]) "id" createOptions).2 =
      .ok [("note", Value.null), ("n", Value.num 0)] := by decide
  refine ⟨?_, ?_, ?_⟩
  · exact (c2_missing_field [] [] [⟨"n", "NUMBER", false, true⟩]
      ⟨"note", "TEXT", true, true⟩ "id" createOptions (by decide) (by decide)
      (by decide) (by decide) hcols).1 (by decide) _ hm
  · have hcols2 : ((((⟨"note", "TEXT", true, true⟩ : Col) :: []) ++
        (⟨"n", "NUMBER", false, true⟩ : Col) :: []).map Col.name).Nodup := by
      decide
    exact (c2_missing_field [] [⟨"note", "TEXT", true, true⟩] []
      ⟨"n", "NUMBER", false, true⟩ "id" createOptions (by decide) (by decide)
      (by decide) (by decide) hcols2).2.1 (by decide) (by decide) _ hm
  · exact (c2_missing_field [] [] [] ⟨"n", "NUMBER", false, true⟩ "id"
      ⟨false, false, false⟩ (by decide) (by decide) (by decide) (by decide)
      (by decide)).2.2 (by decide) (by decide) (by decide)

/-- C3: a submitted primary-key value under the update policy (ignorePk
false) makes validation fail — naming the primary key when no earlier
catalog column already fails; under the create policy (ignorePk true) the
submitted primary-key value is silently dropped, in the sense that
validation behaves exactly as if the key were absent; and the primary-key
column never appears in a sanitized map. -/
theorem c3_primary_key (form : FieldMap) (pk : String)
    (opts : ValidationOptions) :
    (∀ (pre post : List Col) (c : Col), c.nullableOk = true → c.name = pk →
      (∀ d ∈ pre, colClean form pk opts d = true) →
      opts.ignorePk = false → (alFind? form pk).isSome = true →
      (processForm form (pre ++ c :: post) pk opts).2 = .error (.validation pk)) ∧
    (opts.ignorePk = true → ∀ columns : List Col,
      (processForm form columns pk opts).2 =
        (processForm (alErase form pk) columns pk opts).2) ∧
    (∀ (columns : List Col) (m : FieldMap),
      (processForm form columns pk opts).2 = .ok m → alFind? m pk = none) := by
  refine ⟨fun pre post c hok hname hpre hig hhas => ?_,
    fun hig columns => ?_, fun columns m hm => ?_⟩
  · have hunclean : colClean form pk opts c = false := by
      simp [colClean, hok, hname, hig, hhas]
    unfold processForm
    rw [pf_first_offender pk opts form pre post c hpre hunclean []]
    simp [stepError, hok, hname]
  · exact pf_erase_pk pk opts form columns hig []
  · obtain ⟨hall, rfl⟩ := pf_ok_clean pk opts form columns [] m hm
    rw [cleanRun_find_pk]
    rfl

/-- Witness for C3 at a concrete input: a submitted id under the update
policy is rejected naming id; under the create policy the same submission
validates exactly like the submission with id removed; and the sanitized
map of a successful create has no id key. -/
theorem c3_primary_key_witness :
    (processForm [("id", Value.num 7), ("title", Value.str "hi")]
        ([] ++ (⟨"id", "NUMBER", false, true⟩ : Col) ::
          [⟨"title", "VARCHAR", false, true⟩]) "id" updateOptions).2 =
      .error (.validation "id") ∧
    (processForm [("id", Value.num 7), ("title", Value.str "hi")]
        [⟨"id", "NUMBER", false, true⟩, ⟨"title", "VARCHAR", false, true⟩]
        "id" createOptions).2 =
      (processForm
        (alErase [("id", Value.num 7), ("title", Value.str "hi")] "id")
        [⟨"id", "NUMBER", false, true⟩, ⟨"title", "VARCHAR", false, true⟩]
        "id" createOptions).2 ∧
    alFind? [("title", Value.str "hi")] "id" = none := by
  refine ⟨?_, ?_, ?_⟩
  · exact (c3_primary_key [("id", Value.num 7), ("title", Value.str "hi")]
      "id" updateOptions).1 [] [⟨"title", "VARCHAR", false, true⟩]
      ⟨"id", "NUMBER", false, true⟩ (by decide) (by decide) (by decide)
      (by decide) (by decide)
  · exact (c3_primary_key [("id", Value.num 7), ("title", Value.str "hi")]
      "id" createOptions).2.1 (by decide)
      [⟨"id", "NUMBER", false, true⟩, ⟨"title", "VARCHAR", false, true⟩]
  · exact (c3_primary_key [("id", Value.num 7), ("title", Value.str "hi")]
      "id" createOptions).2.2
      [⟨"id", "NUMBER", false, true⟩, ⟨"title", "VARCHAR", false, true⟩]
      [("title", Value.str "hi")] (by decide)

/-- C4: every key of a sanitized map is the name of a catalog column, and
submitted keys outside the column set are silently ignored: restricting
the submitted map to the catalog column names changes neither the
validation outcome nor the sanitized map, so unknown keys cause no error
and never reach the executor. -/
theorem c4_unknown_fields (form : FieldMap) (columns : List Col)
    (pk : String) (opts : ValidationOptions) :
    (∀ m, (processForm form columns pk opts).2 = .ok m →
      ∀ k, k ∈ alKeys m → k ∈ columns.map Col.name) ∧
    (processForm form columns pk opts).2 =
      (processForm (alFilter form (columns.map Col.name)) columns pk opts).2 := by
  constructor
  · intro m hm k hk
    obtain ⟨hall, rfl⟩ := pf_ok_clean pk opts form columns [] m hm
    rcases cleanRun_keys form pk opts k columns [] hk with h | h
    · simp [alKeys] at h
    · exact h
  · exact pf_filter pk opts form (columns.map Col.name) columns
      (fun c hc => List.mem_map_of_mem Col.name hc) []

/-- Witness for C4 at a concrete input: the unknown submitted key extra is
ignored — the sanitized map keeps only the catalog column title, and the
outcome equals that of the submission restricted to the catalog names. -/
theorem c4_unknown_fields_witness :
    "title" ∈ [(⟨"title", "VARCHAR", false, true⟩ : Col)].map Col.name ∧
    (processForm [("extra", Value.num 1), ("title", Value.str "hi")]
        [⟨"title", "VARCHAR", false, true⟩] "id" createOptions).2 =
      (processForm
        (alFilter [("extra", Value.num 1), ("title", Value.str "hi")]
          ([(⟨"title", "VARCHAR", false, true⟩ : Col)].map Col.name))
        [⟨"title", "VARCHAR", false, true⟩] "id" createOptions).2 :=
  ⟨(c4_unknown_fields [("extra", Value.num 1), ("title", Value.str "hi")]
      [⟨"title", "VARCHAR", false, true⟩] "id" createOptions).1
      [("title", Value.str "hi")] (by decide) "title" (by decide),
   (c4_unknown_fields [("extra", Value.num 1), ("title", Value.str "hi")]
      [⟨"title", "VARCHAR", false, true⟩] "id" createOptions).2⟩

/-- C6 counterexample: the request (GET, /) is matched by the patterns of
two different registered routes sharing the method GET — the root route and
the table-items route, whose starred word class may match the empty string —
so route ordering does determine which handler runs on GET /. -/
theorem c6_overlap_counterexample :
    routeRoot ∈ fixedRoutes ∧ routeTableItems ∈ fixedRoutes ∧
    routeRoot.method = "GET" ∧ routeTableItems.method = "GET" ∧
    routeRoot ≠ routeTableItems ∧
    matchesTokens routeRoot.pattern ['/'] = true ∧
    matchesTokens routeTableItems.pattern ['/'] = true := by
  refine ⟨by simp [fixedRoutes], by simp [fixedRoutes], rfl, rfl, ?_, ?_, ?_⟩
  · intro h
    exact absurd (congrArg RouteM.handler h) (by decide)
  · simp [routeRoot, matchesTokens]
  · simp [routeTableItems, matchesTokens]

/-- C6 (amended): in the fixed route set, the only (method, path) pair
matched by two different routes of the same method is (GET, /); for every
other request, two same-method matching routes are equal, so ordering never
matters away from GET /. -/
theorem c6_no_other_overlap (m : String) (p : List Char) (r1 r2 : RouteM)
    (h1 : r1 ∈ fixedRoutes) (h2 : r2 ∈ fixedRoutes)
    (hm1 : r1.method = m) (hm2 : r2.method = m)
    (hp1 : matchesTokens r1.pattern p = true)
    (hp2 : matchesTokens r2.pattern p = true) :
    r1 = r2 ∨ (m = "GET" ∧ p = ['/']) := by
  simp only [fixedRoutes, List.mem_cons, List.not_mem_nil, or_false] at h1 h2
  rcases h1 with rfl | rfl | rfl | rfl | rfl | rfl <;>
    rcases h2 with rfl | rfl | rfl | rfl | rfl | rfl <;>
    first
      | exact Or.inl rfl
      | exact absurd (hm2.trans hm1.symm) (by decide)
      | (have hp := matches_root p (by simpa [routeRoot] using hp1)
         subst hp
         exact Or.inr ⟨hm1.symm, rfl⟩)
      | (have hp := matches_root p (by simpa [routeRoot] using hp2)
         subst hp
         exact Or.inr ⟨hm2.symm, rfl⟩)
      | (have e1 := count_slash_items p (by simpa [routeTableItems] using hp1)
         have e2 := count_slash_item p (by simpa [routeTableItem] using hp2)
         omega)
      | (have e1 := count_slash_items p (by simpa [routeTableItems] using hp2)
         have e2 := count_slash_item p (by simpa [routeTableItem] using hp1)
         omega)

/-- Witness for the amended C6 theorem, applied at the (GET, /) overlap
itself: the conclusion holds through its right disjunct. -/
theorem c6_no_other_overlap_witness :
    routeRoot = routeTableItems ∨ ("GET" = "GET" ∧ ['/'] = ['/']) :=
  c6_no_other_overlap "GET" ['/'] routeRoot routeTableItems
    (by simp [fixedRoutes]) (by simp [fixedRoutes]) rfl rfl
    (by simp [routeRoot, matchesTokens])
    (by simp [routeTableItems, matchesTokens])

/-- C7: round trip.  Creating a record from a body that provides a
type-correct value for every non-primary-key catalog column succeeds, the
engine assigns the next identifier, and reading the record back by that
identifier yields the submitted values unchanged on every non-primary-key
column with the primary-key field equal to the returned identifier.  The
catalog is assumed well formed: distinct column names, nullability
reported, a non-string-typed primary-key column present, and the engine
state holds no row under the fresh identifier. -/
theorem c7_round_trip (st : DbState) (columns : List Col) (pk : String)
    (form : FieldMap)
    (hok : ∀ c ∈ columns, c.nullableOk = true)
    (hnodup : (columns.map Col.name).Nodup)
    (hpkmem : pk ∈ columns.map Col.name)
    (hpkty : ∀ c ∈ columns, c.name = pk → isStringType c.dbTypeName = false)
    (hprov : ∀ c ∈ columns, c.name ≠ pk → providedOk form c = true)
    (hfresh : ∀ r ∈ st.rows, ¬ alFind? r pk = some (.num st.nextId)) :
    ∃ st2 record,
      handlerCreateItem st columns pk form = .ok (st.nextId, st2) ∧
      getItem st2 columns pk (.num st.nextId) = .ok record ∧
      alFind? record pk = some (.num st.nextId) ∧
      (∀ c ∈ columns, c.name ≠ pk →
        alFind? record c.name = alFind? form c.name) := by
  have hclean : ∀ c ∈ columns, colClean form pk createOptions c = true := by
    intro c hc
    by_cases hpk : c.name = pk
    · simp [colClean, hok c hc, hpk, createOptions]
    · have hp := hprov c hc hpk
      unfold providedOk at hp
      cases hval : alFind? form c.name with
      | none =>
        rw [hval] at hp
        exact absurd hp (by simp)
      | some v =>
        rw [hval] at hp
        simp [colClean, hok c hc, hpk, hval, typeCorrect_not_mismatch v c hp]
  have hpf : (processForm form columns pk createOptions).2 =
      .ok (cleanRun form pk createOptions [] columns) := by
    unfold processForm
    rw [pf_all_clean pk createOptions form columns hclean []]
  refine ⟨⟨st.rows ++
      [(pk, Value.num st.nextId) :: cleanRun form pk createOptions [] columns],
      st.nextId + 1⟩,
    decodeRow columns
      ((pk, Value.num st.nextId) :: cleanRun form pk createOptions [] columns),
    ?_, ?_, ?_, ?_⟩
  · unfold handlerCreateItem
    rw [hpf]
    rfl
  · unfold getItem
    have hrowfind : (st.rows ++
        [(pk, Value.num st.nextId) :: cleanRun form pk createOptions [] columns]).find?
          (fun r => decide (alFind? r pk = some (.num st.nextId))) =
        some ((pk, Value.num st.nextId) :: cleanRun form pk createOptions [] columns) := by
      rw [find?_append_of_none _ st.rows _
        (fun r hr => decide_eq_false (hfresh r hr))]
      simp [List.find?, alFind?]
    simp only [hrowfind]
  · obtain ⟨cpk, hcpkmem, hcpkname⟩ := List.mem_map.mp hpkmem
    have hdf := decodeRow_find
      ((pk, Value.num st.nextId) :: cleanRun form pk createOptions [] columns)
      cpk columns hcpkmem hnodup
    rw [hcpkname] at hdf
    rw [hdf]
    have hrowpk : alFind?
        ((pk, Value.num st.nextId) :: cleanRun form pk createOptions [] columns) pk =
        some (.num st.nextId) := by
      simp [alFind?]
    rw [hrowpk]
    simp [decodeVal, hpkty cpk hcpkmem hcpkname]
  · intro c hc hcpk
    have hdf := decodeRow_find
      ((pk, Value.num st.nextId) :: cleanRun form pk createOptions [] columns)
      c columns hc hnodup
    rw [hdf]
    have hp := hprov c hc hcpk
    unfold providedOk at hp
    cases hval : alFind? form c.name with
    | none =>
      rw [hval] at hp
      exact absurd hp (by simp)
    | some v =>
      rw [hval] at hp
      have hne : ¬ pk = c.name := fun he => hcpk he.symm
      have hrowc : alFind?
          ((pk, Value.num st.nextId) :: cleanRun form pk createOptions [] columns)
          c.name = some v := by
        rw [alFind?, if_neg hne]
        exact cleanRun_find_submitted form pk createOptions columns c v hc hcpk hval
      rw [hrowc, decodeVal_typeCorrect c v hp]

/-- Witness for C7 at a concrete table (id NUMBER primary key, title
VARCHAR) over the empty engine state: the created record reads back with
the submitted title and the assigned identifier 1. -/
theorem c7_round_trip_witness :
    ∃ st2 record,
      handlerCreateItem ⟨[], 1⟩
        [⟨"id", "NUMBER", false, true⟩, ⟨"title", "VARCHAR", false, true⟩]
        "id" [("title", Value.str "hi")] = .ok (1, st2) ∧
      getItem st2
        [⟨"id", "NUMBER", false, true⟩, ⟨"title", "VARCHAR", false, true⟩]
        "id" (.num 1) = .ok record ∧
      alFind? record "id" = some (.num 1) ∧
      (∀ c ∈ [(⟨"id", "NUMBER", false, true⟩ : Col),
          ⟨"title", "VARCHAR", false, true⟩], c.name ≠ "id" →
        alFind? record c.name = alFind? [("title", Value.str "hi")] c.name) :=
  c7_round_trip ⟨[], 1⟩
    [⟨"id", "NUMBER", false, true⟩, ⟨"title", "VARCHAR", false, true⟩]
    "id" [("title", Value.str "hi")]
    (by decide) (by decide) (by decide) (by decide) (by decide) (by decide)

end DbEx
